import Mathlib

/-
Verification of the header-normalization, duplicate-resolution, type-coercion
and aggregation core of the capital-project dashboard script
src/streamlit_app.py, shallowly embedded over lists of characters and a
tagged cell model.  Python strings are modelled as List Char, pandas cell
values as a tagged variant (text, number, missing), numbers as rationals,
and the NaN-producing and error-propagating behaviour of the pipeline as
Option results.
-/

/-- A Python string, modelled as its list of characters. -/
abbrev Name := List Char

/-- Leftmost, non-overlapping substring replacement, mirroring Python
str.replace.  Structural recursion on a fuel argument that must be at
least the length of the subject string; the program never calls replace
with an empty pattern, and for nonempty patterns the fuel is adequate. -/
def pyReplaceFuel : Nat → List Char → List Char → List Char → List Char
  | 0, s, _, _ => s
  | _ + 1, [], _, _ => []
  | f + 1, c :: s, pat, rep =>
    if pat.isPrefixOf (c :: s) then rep ++ pyReplaceFuel f ((c :: s).drop pat.length) pat rep
    else c :: pyReplaceFuel f s pat rep

/-- Python str.replace (leftmost, non-overlapping, all occurrences). -/
def pyReplace (s pat rep : List Char) : List Char := pyReplaceFuel s.length s pat rep

/-- Python str.strip: remove leading and trailing whitespace. -/
def pyStrip (s : List Char) : List Char :=
  List.reverse (List.dropWhile Char.isWhitespace (List.reverse (List.dropWhile Char.isWhitespace s)))

/-- Python substring membership test, the in operator on str. -/
def hasSubstring : List Char → List Char → Bool
  | [], pat => pat.isEmpty
  | c :: s, pat => pat.isPrefixOf (c :: s) || hasSubstring s pat

/-- Python str.upper, restricted to the ASCII case mapping of Char.toUpper. -/
def upperName (s : Name) : Name := s.map Char.toUpper

def chSp : List Char := [' ']
def chPlus : List Char := ['+']
def chDot : List Char := ['.']
def chDash : List Char := ['-']
def chUnd : List Char := ['_']
def chUndUnd : List Char := ['_', '_']

def pTID : Name := ("PROJEC_TID".toList)
def rTID : Name := ("PROJECT_ID".toList)
def pINI : Name := ("INI_MATIVE_PROGRAM".toList)
def rINI : Name := ("INITIATIVE_PROGRAM".toList)
def pAPY : Name := ("ALL_PRIOR_YEARS_A".toList)
def rAPY : Name := ("ALL_PRIOR_YEARS_ACTUALS".toList)
def pCUR : Name := ("C_URRENT_EAC".toList)
def rCUR : Name := ("CURRENT_EAC".toList)
def pQE : Name := ("QE_RUN_RATE".toList)

/-- The chained character-level replacements of clean_col_name, line 23 of
the source: replace space with underscore, plus with underscore, remove
dots, replace dash with underscore, then one left-to-right replacement
pass turning double underscores into single ones. -/
def charFold (s : List Char) : List Char :=
  pyReplace
    (pyReplace (pyReplace (pyReplace (pyReplace s chSp chUnd) chPlus chUnd) chDot []) chDash chUnd)
    chUndUnd chUnd

/-- The typo-correction pass of clean_col_name, lines 25 to 35 of the
source: four conditional substring replacements and two conditional
whole-string overwrites, applied in order on the upper-cased name. -/
def typoFix (s : Name) : Name :=
  let s1 := if hasSubstring s pTID then pyReplace s pTID rTID else s
  let s2 := if hasSubstring s1 pINI then pyReplace s1 pINI rINI else s1
  let s3 := if hasSubstring s2 pAPY then pyReplace s2 pAPY rAPY else s2
  let s4 := if hasSubstring s3 pCUR then rCUR else s3
  let s5 := if hasSubstring s4 pQE then pQE else s4
  s5

/-- clean_col_name, lines 22 to 36 of the source: coerce to str (implicit
in the Name model), strip, character folding, upper-case, typo fixes. -/
def clean_col_name (s : Name) : Name := typoFix (upperName (charFold (pyStrip s)))

/-- Decimal digit list of a natural number, fuel-indexed (fuel above the
number suffices). -/
def natStrFuel : Nat → Nat → List Char
  | 0, _ => []
  | f + 1, n =>
    if n < 10 then [Char.ofNat (48 + n)]
    else natStrFuel f (n / 10) ++ [Char.ofNat (48 + n % 10)]

/-- Decimal rendering of a natural number, as Python str of an int. -/
def natStr (n : Nat) : List Char := natStrFuel (n + 1) n

/-- Value of a list of decimal digit characters. -/
def natOfDigits (s : List Char) : Nat := s.foldl (fun a c => 10 * a + (c.toNat - 48)) 0

/-- Values occurring at duplicated positions (positions whose value already
appeared earlier), in order, mirroring cols of cols.duplicated of line 42. -/
def dupEntriesAux : List Name → List Name → List Name
  | _, [] => []
  | seen, v :: rest =>
    if v ∈ seen then v :: dupEntriesAux seen rest else dupEntriesAux (v :: seen) rest

/-- pandas Series.unique: first-appearance-ordered deduplication. -/
def pdUniqueAux : List Name → List Name → List Name
  | _, [] => []
  | seen, v :: rest =>
    if v ∈ seen then pdUniqueAux seen rest else v :: pdUniqueAux (v :: seen) rest

/-- The snapshot of initially-duplicated values iterated by the loop of
lines 42 to 43 of the source. -/
def dupValues (l : List Name) : List Name := pdUniqueAux [] (dupEntriesAux [] l)

/-- One pass of line 43: rename the k-th occurrence (k counted from 0) of
value dup to dup, underscore, str k, keeping the occurrence at k = 0. -/
def renameDupAux (dup : Name) : Nat → List Name → List Name
  | _, [] => []
  | k, v :: rest =>
    if v = dup then
      (if k = 0 then v else dup ++ '_' :: natStr k) :: renameDupAux dup (k + 1) rest
    else v :: renameDupAux dup k rest

def renameDup (cols : List Name) (dup : Name) : List Name := renameDupAux dup 0 cols

/-- The duplicate-resolution loop of lines 41 to 44 of the source: the
duplicated values are snapshotted once, then each is renamed against the
current (already partially renamed) state. -/
def resolveDuplicates (cols : List Name) : List Name :=
  (dupValues cols).foldl renameDup cols

/-- A pandas cell: text, a (floating-point) number modelled as a rational,
or missing (NaN / empty field). -/
inductive Cell where
  | text : List Char → Cell
  | num : ℚ → Cell
  | empty : Cell
deriving DecidableEq

abbrev Col := Name × List Cell

/-- An in-memory table: a row count and named columns of cells.
Column order and name multiplicity follow the source data frame. -/
structure RawTable where
  nrows : Nat
  cols : List Col
deriving DecidableEq

/-- Exponent tail of a Python float literal: empty, or e or E followed by
an optionally signed nonempty digit string. -/
def parseExpTail : List Char → Option Int
  | [] => some 0
  | c :: r =>
    if c = 'e' ∨ c = 'E' then
      match r with
      | '+' :: d => if !d.isEmpty && d.all Char.isDigit then some (natOfDigits d : Int) else none
      | '-' :: d => if !d.isEmpty && d.all Char.isDigit then some (-(natOfDigits d : Int)) else none
      | d => if !d.isEmpty && d.all Char.isDigit then some (natOfDigits d : Int) else none
    else none

def applyExp (q : ℚ) (e : Int) : ℚ :=
  if 0 ≤ e then q * 10 ^ e.toNat else q / 10 ^ (-e).toNat

/-- Python float(s) on decimal literals: surrounding whitespace, optional
sign, integer part and/or fractional part, optional exponent.  The special
spellings nan, inf and underscore separators are outside the model; the
pipeline never relies on them. -/
def parseFloat (s0 : List Char) : Option ℚ :=
  let s := pyStrip s0
  let sgn : ℚ := if s.head? = some '-' then -1 else 1
  let s1 := if s.head? = some '-' ∨ s.head? = some '+' then s.tail else s
  let ip := s1.takeWhile Char.isDigit
  let r1 := s1.dropWhile Char.isDigit
  match r1 with
  | '.' :: r2 =>
    let fp := r2.takeWhile Char.isDigit
    let r3 := r2.dropWhile Char.isDigit
    if ip.isEmpty && fp.isEmpty then none
    else
      match parseExpTail r3 with
      | some e => some (applyExp (sgn * ((natOfDigits ip : ℚ) + (natOfDigits fp : ℚ) / 10 ^ fp.length)) e)
      | none => none
  | r =>
    if ip.isEmpty then none
    else
      match parseExpTail r with
      | some e => some (applyExp (sgn * (natOfDigits ip : ℚ)) e)
      | none => none

/-- Removal of thousands separators and spaces, the two str.replace calls
of line 73 of the source. -/
def stripSeps (s : List Char) : List Char :=
  List.filter (fun c => c != ' ') (List.filter (fun c => c != ',') s)

/-- One cell of the strict text-typed coercion of line 73: astype(str),
remove commas and spaces, map the empty string to 0, then float(); a parse
failure is an error (none).  A numeric cell round-trips through str and
float unchanged, and a missing cell renders as the string nan whose
float() is NaN, modelled as the missing cell. -/
def strictCoerceCell : Cell → Option Cell
  | Cell.text s =>
    let s' := stripSeps s
    if s'.isEmpty then some (Cell.num 0)
    else
      match parseFloat s' with
      | some q => some (Cell.num q)
      | none => none
  | Cell.num q => some (Cell.num q)
  | Cell.empty => some Cell.empty

/-- Line 73 applied to a whole column: any failing cell fails the column. -/
def strictCoerceColumn : List Cell → Option (List Cell)
  | [] => some []
  | c :: cs =>
    match strictCoerceCell c, strictCoerceColumn cs with
    | some d, some ds => some (d :: ds)
    | _, _ => none

/-- pd.to_numeric with errors coerce on one cell: numbers pass through,
missing stays missing, text parses or becomes missing. -/
def toNumericCell : Cell → Cell
  | Cell.text s =>
    match parseFloat s with
    | some q => Cell.num q
    | none => Cell.empty
  | Cell.num q => Cell.num q
  | Cell.empty => Cell.empty

/-- fillna(0) on one cell. -/
def fillZero : Cell → Cell
  | Cell.empty => Cell.num 0
  | c => c

/-- Line 87, the lenient monthly-grid coercion of one cell:
pd.to_numeric(errors coerce) followed by fillna(0). -/
def lenientCell (c : Cell) : Cell := fillZero (toNumericCell c)

/-- Whether a pandas column read from CSV has object (string) dtype:
it does whenever some cell failed numeric inference, that is, whenever a
text cell is present. -/
def objectDtype (cs : List Cell) : Bool := cs.any (fun c => match c with | Cell.text _ => true | _ => false)

/-- The financial-column allow-list of lines 47 to 64 of the source,
transcribed verbatim. -/
def financial_cols : List Name := List.map String.toList [
  "ALL_PRIOR_YEARS_ACTUALS", "BUSINESS_ALLOCATION", "CURRENT_EAC",
  "QE_FORECAST_VS_QE_PLAN", "FORECAST_VS_BA",
  "YE_RUN", "RATE", "QE_RUN", "RATE_1", "QE_RUN_RATE_0",
  "2025_01_A", "2025_02_A", "2025_03_A", "2025_04_A", "2025_05_A", "2025_06_A", "2025_07_A",
  "2025_08_A", "2025_09_A", "2025_10_A", "2025_11_A", "2025_12_A",
  "2025_01_F", "2025_02_F", "2025_03_F", "2025_04_F", "2025_05_F", "2025_06_F", "2025_07_F",
  "2025_08_F", "2025_09_F", "2025_10_F", "2025_11_F", "2025_12_F",
  "2025_01_CP", "2025_02_CP", "2025_03_CP", "2025_04_CP", "2025_05_CP", "2025_06_CP", "2025_07_CP",
  "2025_08_CP", "2025_09_CP", "2025_10_CP", "2025_11_CP", "2025_12_CP",
  "2025_01__A_1", "2025_02__A_1", "2025_03__A_1", "2025_04__A_1", "2025_05__A_1", "2025_06__A_1", "2025_07__A_1",
  "2025_08__A_1", "2025_09_A_1", "2025_10__A_1", "2025_11__A_1", "2025_12__A_1",
  "2025_01_F_1", "2025_02_F_1", "2025_03_F_1", "2025_04_F_1", "2025_05_F_1", "2025_06_F_1", "2025_07_F_1",
  "2025_08_F_1", "2025_09_F_1", "2025_10_F_1", "2025_11_F_1", "2025_12_F_1",
  "2025_01_CP_1", "2025_02_CP_1", "2025_03_CP_1", "2025_04_CP_1", "2025_05_CP_1", "2025_06_CP_1", "2025_07_CP_1",
  "2025_08_CP_1", "2025_09_CP_1", "2025_10_CP_1", "2025_11_CP_1", "2025_12_CP_1"]

def pref2025 : Name := ("2025_".toList)
def sufA : Name := ("_A".toList)
def sufF : Name := ("_F".toList)
def sufCP : Name := ("_CP".toList)

/-- Python str.startswith. -/
def nmStartsWith (s p : Name) : Bool := p.isPrefixOf s

/-- Python str.endswith. -/
def nmEndsWith (s p : Name) : Bool := p.isSuffixOf s

/-- Line 79: the monthly-actual recognition pattern. -/
def isMonthlyActual (n : Name) : Bool := nmStartsWith n pref2025 && nmEndsWith n sufA

/-- Line 80: the monthly-forecast recognition pattern. -/
def isMonthlyForecast (n : Name) : Bool := nmStartsWith n pref2025 && nmEndsWith n sufF

/-- Line 81: the monthly-capital-plan recognition pattern. -/
def isMonthlyPlan (n : Name) : Bool := nmStartsWith n pref2025 && nmEndsWith n sufCP

def isMonthlyCol (n : Name) : Bool := isMonthlyActual n || isMonthlyForecast n || isMonthlyPlan n

/-- Lines 70 to 75 on one column: allow-listed columns are coerced,
strictly when object-typed, leniently to numeric-or-missing otherwise;
other columns are untouched. -/
def coerceCol (n : Name) (cs : List Cell) : Option (List Cell) :=
  if n ∈ financial_cols then
    if objectDtype cs then strictCoerceColumn cs
    else some (cs.map toNumericCell)
  else some cs

/-- Lines 66 to 75 over the whole table; a column failure aborts the load
(the exception of line 73 propagates out of load_data). -/
def strictStage : List Col → Option (List Col)
  | [] => some []
  | p :: rest =>
    match coerceCol p.1 p.2, strictStage rest with
    | some cs, some others => some ((p.1, cs) :: others)
    | _, _ => none

/-- Lines 83 to 87: every column matching one of the three monthly
patterns is re-coerced leniently, unparseable and missing cells
becoming 0. -/
def lenientStage (cols : List Col) : List Col :=
  cols.map (fun p => if isMonthlyCol p.1 then (p.1, p.2.map lenientCell) else p)

/-- First column of the given name, as indexing a data frame by column
label (unique names after resolution). -/
def getCol? : List Col → Name → Option (List Cell)
  | [], _ => none
  | (m, u) :: rest, n => if m = n then some u else getCol? rest n

/-- Assignment df[n] = v: overwrite the (first) column named n, else
append it. -/
def setCol : List Col → Name → List Cell → List Col
  | [], n, v => [(n, v)]
  | (m, u) :: rest, n, v => if m = n then (n, v) :: rest else (m, u) :: setCol rest n v

/-- Numeric value of a cell under pandas row-wise sum (NaN skipped,
counted as 0). -/
def cellValOrZero : Cell → ℚ
  | Cell.num q => q
  | _ => 0

def selectCols (cols : List Col) (names : List Name) : List (List Cell) :=
  names.filterMap (fun n => getCol? cols n)

/-- df of a column-name list, summed along axis 1. -/
def rowSums (nr : Nat) (cdata : List (List ℚ)) : List ℚ :=
  cdata.foldl (fun acc col => List.zipWith (fun a b => a + b) acc col) (List.replicate nr 0)

/-- One derived total of lines 90 to 92: the row-wise sum over the pattern
group when it is nonempty, the scalar 0 broadcast over all rows when it
is empty. -/
def groupTotal (nr : Nat) (cols : List Col) (names : List Name) : List Cell :=
  if names.isEmpty then List.replicate nr (Cell.num 0)
  else (rowSums nr ((selectCols cols names).map (fun cs => cs.map cellValOrZero))).map Cell.num

def nmTOTA : Name := ("TOTAL_2025_ACTUALS".toList)
def nmTOTF : Name := ("TOTAL_2025_FORECASTS".toList)
def nmTOTCP : Name := ("TOTAL_2025_CAPITAL_PLAN".toList)
def nmTAD : Name := ("TOTAL_ACTUALS_TO_DATE".toList)
def nmAPYA : Name := rAPY

/-- Lines 79 to 81 and 89 to 92: recognize the three monthly groups among
the current column names and append the three derived totals. -/
def totalsStage (nr : Nat) (cols : List Col) : List Col :=
  let aN := (cols.map Prod.fst).filter isMonthlyActual
  let fN := (cols.map Prod.fst).filter isMonthlyForecast
  let pN := (cols.map Prod.fst).filter isMonthlyPlan
  let c1 := setCol cols nmTOTA (groupTotal nr cols aN)
  let c2 := setCol c1 nmTOTF (groupTotal nr c1 fN)
  setCol c2 nmTOTCP (groupTotal nr c2 pN)

/-- Addition of two cells under pandas semantics on numeric columns:
number plus number adds, anything involving a missing value is missing
(the text case cannot reach line 95, both operands being coerced). -/
def cellAdd : Cell → Cell → Cell
  | Cell.num a, Cell.num b => Cell.num (a + b)
  | _, _ => Cell.empty

/-- Lines 38 to 44: clean every header, then resolve duplicates. -/
def resolvedCols (t : RawTable) : List Col :=
  let cleaned := t.cols.map (fun p => (clean_col_name p.1, p.2))
  List.zip (resolveDuplicates (cleaned.map Prod.fst)) (cleaned.map Prod.snd)

def resolvedNames (t : RawTable) : List Name := (resolvedCols t).map Prod.fst

/-- load_data, lines 12 to 97 of the source, from the decoded table on:
clean and resolve headers, strict allow-list coercion (errors propagate),
lenient monthly coercion, derived totals, and the total-actuals-to-date
column whose missing prior-years column is a KeyError (none). -/
def load_data (t : RawTable) : Option RawTable :=
  match strictStage (resolvedCols t) with
  | none => none
  | some s =>
    let l := lenientStage s
    let tcols := totalsStage t.nrows l
    match getCol? tcols nmAPYA, getCol? tcols nmTOTA with
    | some ap, some tot =>
      some ⟨t.nrows, setCol tcols nmTAD (List.zipWith cellAdd ap tot)⟩
    | _, _ => none

/-- Column of the loaded table, when the load succeeds. -/
def loadedCol (t : RawTable) (n : Name) : Option (List Cell) :=
  match load_data t with
  | some t2 => getCol? t2.cols n
  | none => none

/- Specification-side definitions, kept separate from the source
embedding: they transcribe the words of the specification for comparison
with the embedded code. -/

/-- Specification reading of step 2 of the Header Normalizer, as amended:
spaces, plus and dash become underscores, dots are removed, then a single
left-to-right pass replaces double underscores. -/
def subChar (c : Char) : Char := if c = ' ' ∨ c = '+' ∨ c = '-' then '_' else c

def step2spec (s : List Char) : List Char :=
  pyReplace (List.map subChar (List.filter (fun c => c != '.') s)) chUndUnd chUnd

/-- The renaming the specification prescribes for one occurrence: the
occurrence of a value with c earlier equal occurrences keeps the value
when c is 0 and otherwise gains an underscore and the decimal of c. -/
def emit (v : Name) (c : Nat) : Name := if c = 0 then v else v ++ '_' :: natStr c

/-- The Duplicate Resolver of the specification: per-position renaming by
earlier-occurrence count. -/
def specResolveAux : List Name → List Name → List Name
  | _, [] => []
  | seen, v :: rest => emit v (seen.count v) :: specResolveAux (v :: seen) rest

def specResolve (l : List Name) : List Name := specResolveAux [] l

/-- The per-value renaming applied only to values in the set D; the
intermediate states of the resolver loop take this shape. -/
def partResolveAux (D : List Name) : List Name → List Name → List Name
  | _, [] => []
  | seen, v :: rest =>
    (if v ∈ D then emit v (seen.count v) else v) :: partResolveAux D (v :: seen) rest

/-- Does w have the shape of a name the resolver could synthesize from v:
v, an underscore, and the canonical decimal digits of a positive number. -/
def isSynthSuffix (w v : Name) : Bool :=
  (w.take v.length == v) &&
    match w.drop v.length with
    | '_' :: d =>
      !d.isEmpty && d.all Char.isDigit && (natStr (natOfDigits d) == d) && decide (1 ≤ natOfDigits d)
    | _ => false

/-- No label of the sequence collides with a name the resolver could
synthesize from another label of the sequence. -/
def noSynthCollision (l : List Name) : Bool :=
  l.all (fun w => l.all (fun v => !(isSynthSuffix w v)))

/- Concrete tables used to instantiate the theorems. -/

/-- Two equal monthly-actual headers plus the prior-years column. -/
def tblDup : RawTable :=
  ⟨1, [(("2025_01_A".toList), [Cell.num 100]),
       (("2025_01_A".toList), [Cell.num 50]),
       (("All Prior Years A".toList), [Cell.num 0])]⟩

/-- Three monthly-pattern columns outside the allow-list, one with an
unparseable cell, plus the prior-years column. -/
def tblLenient : RawTable :=
  ⟨1, [(("2025_13_A".toList), [Cell.num 100]),
       (("2025_14_A".toList), [Cell.num 200]),
       (("2025_15_A".toList), [Cell.text ("bad".toList)]),
       (("All Prior Years A".toList), [Cell.num 1])]⟩

/-- Three allow-listed monthly-actual columns, one with an unparseable
text cell, plus the prior-years column. -/
def tblStrictBad : RawTable :=
  ⟨1, [(("2025_01_A".toList), [Cell.num 100]),
       (("2025_02_A".toList), [Cell.num 200]),
       (("2025_03_A".toList), [Cell.text ("bad".toList)]),
       (("All Prior Years A".toList), [Cell.num 1])]⟩

/-- An allow-listed text column with an unparseable cell. -/
def tblRateBad : RawTable :=
  ⟨1, [(("Rate".toList), [Cell.text ("bad".toList)]),
       (("All Prior Years A".toList), [Cell.empty])]⟩

/-- A well-behaved table: prior-years plus one monthly actual column. -/
def tblGood : RawTable :=
  ⟨2, [(("All Prior Years A".toList), [Cell.num 7, Cell.empty]),
       (("2025 01 A".toList), [Cell.num 3, Cell.num 4])]⟩

/-- The duplicate-resolver collision example. -/
def lColl : List Name := List.map String.toList ["A", "A", "A_1", "A_1"]

/-- Raw labels whose normalization collides with a synthesized name. -/
def lCollRaw : List Name := List.map String.toList ["a", "a", "a 1"]

/-- The scenario header list of the specification. -/
def lScenario : List Name := List.map String.toList ["Rate", "Rate", "2025 01 A", "2025 01 A"]

/- Lemmas about the replacement primitive. -/

theorem pyReplaceFuel_single (a b : Char) :
    ∀ (f : Nat) (s : List Char), s.length ≤ f →
      pyReplaceFuel f s [a] [b] = s.map (fun c => if c = a then b else c) := by
  intro f
  induction f with
  | zero =>
    intro s h
    have hs : s = [] := List.eq_nil_of_length_eq_zero (Nat.le_zero.mp h)
    subst hs; rfl
  | succ f ih =>
    intro s h
    cases s with
    | nil => rfl
    | cons c s' =>
      simp only [pyReplaceFuel]
      by_cases hc : c = a
      · subst hc
        have hpre : ([c].isPrefixOf (c :: s')) = true := by simp [List.isPrefixOf]
        rw [if_pos hpre]
        simp only [List.length_cons, List.length_nil, List.drop_succ_cons, List.drop_zero,
          List.map_cons]
        rw [ih s' (by simpa using Nat.le_of_succ_le_succ h)]
        simp
      · have hpre : ([a].isPrefixOf (c :: s')) = false := by
          simp [List.isPrefixOf]
          exact fun h' => absurd h'.symm hc
        rw [if_neg (by simp [hpre])]
        rw [ih s' (by simpa using Nat.le_of_succ_le_succ h)]
        simp [hc]

theorem pyReplace_single (a b : Char) (s : List Char) :
    pyReplace s [a] [b] = s.map (fun c => if c = a then b else c) :=
  pyReplaceFuel_single a b s.length s le_rfl

theorem pyReplaceFuel_del (a : Char) :
    ∀ (f : Nat) (s : List Char), s.length ≤ f →
      pyReplaceFuel f s [a] [] = s.filter (fun c => c != a) := by
  intro f
  induction f with
  | zero =>
    intro s h
    have hs : s = [] := List.eq_nil_of_length_eq_zero (Nat.le_zero.mp h)
    subst hs; rfl
  | succ f ih =>
    intro s h
    cases s with
    | nil => rfl
    | cons c s' =>
      simp only [pyReplaceFuel]
      by_cases hc : c = a
      · subst hc
        have hpre : ([c].isPrefixOf (c :: s')) = true := by simp [List.isPrefixOf]
        rw [if_pos hpre]
        simp only [List.length_cons, List.length_nil, List.drop_succ_cons, List.drop_zero,
          List.nil_append]
        rw [ih s' (by simpa using Nat.le_of_succ_le_succ h)]
        simp
      · have hpre : ([a].isPrefixOf (c :: s')) = false := by
          simp [List.isPrefixOf]
          exact fun h' => absurd h'.symm hc
        rw [if_neg (by simp [hpre])]
        rw [ih s' (by simpa using Nat.le_of_succ_le_succ h)]
        simp [hc]

theorem pyReplace_del (a : Char) (s : List Char) :
    pyReplace s [a] [] = s.filter (fun c => c != a) :=
  pyReplaceFuel_del a s.length s le_rfl

theorem pyReplaceFuel_id_of_not_sub :
    ∀ (f : Nat) (s pat rep : List Char), s.length ≤ f → pat ≠ [] →
      hasSubstring s pat = false → pyReplaceFuel f s pat rep = s := by
  intro f
  induction f with
  | zero =>
    intro s pat rep h _ _
    have hs : s = [] := List.eq_nil_of_length_eq_zero (Nat.le_zero.mp h)
    subst hs; rfl
  | succ f ih =>
    intro s pat rep h hp hsub
    cases s with
    | nil => rfl
    | cons c s' =>
      simp only [hasSubstring, Bool.or_eq_false_iff] at hsub
      simp only [pyReplaceFuel]
      rw [if_neg (by simp [hsub.1])]
      rw [ih s' pat rep (by simpa using Nat.le_of_succ_le_succ h) hp hsub.2]

theorem pyReplace_id_of_not_sub (s pat rep : List Char) (hp : pat ≠ [])
    (h : hasSubstring s pat = false) : pyReplace s pat rep = s :=
  pyReplaceFuel_id_of_not_sub s.length s pat rep le_rfl hp h

theorem chars_pyReplaceFuel :
    ∀ (f : Nat) (s pat rep : List Char) (c : Char),
      c ∈ pyReplaceFuel f s pat rep → c ∈ s ∨ c ∈ rep := by
  intro f
  induction f with
  | zero => intro s pat rep c h; exact Or.inl h
  | succ f ih =>
    intro s pat rep c h
    cases s with
    | nil => simp only [pyReplaceFuel] at h; exact absurd h (List.not_mem_nil c)
    | cons x s' =>
      simp only [pyReplaceFuel] at h
      by_cases hpre : (pat.isPrefixOf (x :: s')) = true
      · rw [if_pos hpre] at h
        rcases List.mem_append.mp h with h1 | h1
        · exact Or.inr h1
        · rcases ih _ pat rep c h1 with h2 | h2
          · exact Or.inl (List.mem_of_mem_drop h2)
          · exact Or.inr h2
      · rw [if_neg hpre] at h
        rcases List.mem_cons.mp h with h1 | h1
        · exact Or.inl (h1 ▸ List.mem_cons_self x s')
        · rcases ih _ pat rep c h1 with h2 | h2
          · exact Or.inl (List.mem_cons_of_mem x h2)
          · exact Or.inr h2

theorem chars_pyReplace (s pat rep : List Char) (c : Char)
    (h : c ∈ pyReplace s pat rep) : c ∈ s ∨ c ∈ rep :=
  chars_pyReplaceFuel s.length s pat rep c h

/- The character-folding step in closed form. -/

theorem charFold_closed (s : List Char) : charFold s = step2spec s := by
  unfold charFold step2spec
  simp only [chSp, chPlus, chDot, chDash, chUnd]
  rw [pyReplace_single, pyReplace_single, pyReplace_del, pyReplace_single]
  rw [List.map_map, List.filter_map, List.map_map]
  have hpred : ∀ c : Char,
      ((fun c => c != '.') ∘ ((fun c => if c = '+' then '_' else c) ∘ fun c => if c = ' ' then '_' else c)) c
        = (fun c => c != '.') c := by
    intro c
    by_cases h1 : c = ' '
    · subst h1; simp
    · by_cases h2 : c = '+'
      · subst h2; simp
      · simp [h1, h2]
  have hfun : ((fun c => if c = '-' then '_' else c) ∘
      ((fun c => if c = '+' then '_' else c) ∘ fun c => if c = ' ' then '_' else c)) = subChar := by
    funext c
    by_cases h1 : c = ' '
    · subst h1; simp [subChar]
    · by_cases h2 : c = '+'
      · subst h2; simp [subChar]
      · by_cases h3 : c = '-'
        · subst h3; simp [subChar]
        · simp [Function.comp, h1, h2, h3, subChar]
  rw [List.filter_congr (fun c _ => hpred c), hfun]

/- Facts about the ASCII upper-casing of characters. -/

theorem toUpper_idem (c : Char) : c.toUpper.toUpper = c.toUpper := by
  unfold Char.toUpper
  by_cases h : c.toNat ≥ 97 ∧ c.toNat ≤ 122
  · simp only [if_pos h]
    obtain ⟨h1, h2⟩ := h
    generalize hm : c.toNat = m at h1 h2
    interval_cases m <;> decide
  · simp only [if_neg h]

theorem toUpper_low (c d : Char) (hd : d.toNat < 65) (h : c.toUpper = d) : c = d := by
  unfold Char.toUpper at h
  by_cases hc : c.toNat ≥ 97 ∧ c.toNat ≤ 122
  · rw [if_pos hc] at h
    obtain ⟨h1, h2⟩ := hc
    generalize hm : c.toNat = m at h1 h2 h
    exfalso
    interval_cases m <;> (rw [← h] at hd; revert hd; decide)
  · rwa [if_neg hc] at h

/- Character inventories of the normalizer stages. -/

theorem chars_charFold (s : List Char) (c : Char) (h : c ∈ charFold s) :
    c = '_' ∨ (c ∈ s ∧ c ≠ ' ' ∧ c ≠ '+' ∧ c ≠ '.' ∧ c ≠ '-') := by
  rw [charFold_closed] at h
  unfold step2spec at h
  rcases chars_pyReplace _ _ _ _ h with h1 | h1
  · rcases List.mem_map.mp h1 with ⟨d, hd, hdc⟩
    have hd' := List.mem_filter.mp hd
    unfold subChar at hdc
    by_cases hsp : d = ' ' ∨ d = '+' ∨ d = '-'
    · rw [if_pos hsp] at hdc; exact Or.inl hdc.symm
    · rw [if_neg hsp] at hdc
      push_neg at hsp
      refine Or.inr ⟨hdc ▸ hd'.1, ?_, ?_, ?_, ?_⟩
      · rw [← hdc]; exact hsp.1
      · rw [← hdc]; exact hsp.2.1
      · rw [← hdc]; intro hh; rw [hh] at hd'; simpa using hd'.2
      · rw [← hdc]; exact hsp.2.2
  · simp only [chUnd, List.mem_singleton] at h1
    exact Or.inl h1

theorem chars_condReplace (c : Char) (x pat rep : List Char)
    (h : c ∈ (if hasSubstring x pat then pyReplace x pat rep else x)) :
    c ∈ x ∨ c ∈ rep := by
  by_cases hc : hasSubstring x pat = true
  · rw [if_pos hc] at h; exact chars_pyReplace x pat rep c h
  · rw [if_neg hc] at h; exact Or.inl h

theorem chars_condOverwrite (c : Char) (x pat L : List Char)
    (h : c ∈ (if hasSubstring x pat then L else x)) :
    c ∈ x ∨ c ∈ L := by
  by_cases hc : hasSubstring x pat = true
  · rw [if_pos hc] at h; exact Or.inr h
  · rw [if_neg hc] at h; exact Or.inl h

theorem chars_typoFix (s : Name) (c : Char) (h : c ∈ typoFix s) :
    c ∈ s ∨ c ∈ rTID ∨ c ∈ rINI ∨ c ∈ rAPY ∨ c ∈ rCUR ∨ c ∈ pQE := by
  simp only [typoFix] at h
  rcases chars_condOverwrite c _ _ _ h with h4 | h4
  · rcases chars_condOverwrite c _ _ _ h4 with h3 | h3
    · rcases chars_condReplace c _ _ _ h3 with h2 | h2
      · rcases chars_condReplace c _ _ _ h2 with h1 | h1
        · rcases chars_condReplace c _ _ _ h1 with h0 | h0
          · exact Or.inl h0
          · exact Or.inr (Or.inl h0)
        · exact Or.inr (Or.inr (Or.inl h1))
      · exact Or.inr (Or.inr (Or.inr (Or.inl h2)))
    · exact Or.inr (Or.inr (Or.inr (Or.inr (Or.inl h3))))
  · exact Or.inr (Or.inr (Or.inr (Or.inr (Or.inr h4))))

theorem clean_not_special (x : Name) (sp : Char) (h65 : sp.toNat < 65)
    (hsp : sp = ' ' ∨ sp = '+' ∨ sp = '.' ∨ sp = '-') : sp ∉ clean_col_name x := by
  intro hmem
  unfold clean_col_name at hmem
  rcases chars_typoFix _ _ hmem with h | h | h | h | h | h
  · rcases List.mem_map.mp h with ⟨d, hd, hdc⟩
    have hds : d = sp := toUpper_low d sp h65 hdc
    subst hds
    rcases chars_charFold _ _ hd with h' | h'
    · rcases hsp with rfl | rfl | rfl | rfl <;> simp at h'
    · rcases hsp with rfl | rfl | rfl | rfl
      · exact h'.2.1 rfl
      · exact h'.2.2.1 rfl
      · exact h'.2.2.2.1 rfl
      · exact h'.2.2.2.2 rfl
  · rcases hsp with rfl | rfl | rfl | rfl <;> revert h <;> decide
  · rcases hsp with rfl | rfl | rfl | rfl <;> revert h <;> decide
  · rcases hsp with rfl | rfl | rfl | rfl <;> revert h <;> decide
  · rcases hsp with rfl | rfl | rfl | rfl <;> revert h <;> decide
  · rcases hsp with rfl | rfl | rfl | rfl <;> revert h <;> decide

theorem chars_clean_upper (x : Name) : ∀ c ∈ clean_col_name x, c.toUpper = c := by
  intro c hmem
  unfold clean_col_name at hmem
  rcases chars_typoFix _ _ hmem with h | h | h | h | h | h
  · rcases List.mem_map.mp h with ⟨d, _, hdc⟩
    rw [← hdc]; exact toUpper_idem d
  · exact (by decide : ∀ a ∈ rTID, Char.toUpper a = a) c h
  · exact (by decide : ∀ a ∈ rINI, Char.toUpper a = a) c h
  · exact (by decide : ∀ a ∈ rAPY, Char.toUpper a = a) c h
  · exact (by decide : ∀ a ∈ rCUR, Char.toUpper a = a) c h
  · exact (by decide : ∀ a ∈ pQE, Char.toUpper a = a) c h

theorem upperName_fixed (s : Name) (h : ∀ c ∈ s, c.toUpper = c) : upperName s = s := by
  unfold upperName
  conv_rhs => rw [← List.map_id s]
  exact List.map_congr_left h

theorem map_if_id (s : List Char) (a b : Char) (h : ∀ c ∈ s, c ≠ a) :
    s.map (fun c => if c = a then b else c) = s := by
  conv_rhs => rw [← List.map_id s]
  exact List.map_congr_left (fun c hc => if_neg (h c hc))

/-- C2, amended: the Header Normalizer is idempotent on every input whose
normalized form is strip-fixed, free of double underscores, and free of
typo-rule triggers (containing QE_RUN_RATE only by being exactly it). -/
theorem c2_thm (x : Name)
    (h0 : pyStrip (clean_col_name x) = clean_col_name x)
    (h1 : hasSubstring (clean_col_name x) chUndUnd = false)
    (h2 : hasSubstring (clean_col_name x) pTID = false)
    (h3 : hasSubstring (clean_col_name x) pINI = false)
    (h4 : hasSubstring (clean_col_name x) pAPY = false)
    (h5 : hasSubstring (clean_col_name x) pCUR = false)
    (h6 : hasSubstring (clean_col_name x) pQE = true → clean_col_name x = pQE) :
    clean_col_name (clean_col_name x) = clean_col_name x := by
  have hnsp : ∀ c ∈ clean_col_name x, c ≠ ' ' := fun c hc he =>
    clean_not_special x ' ' (by decide) (Or.inl rfl) (he ▸ hc)
  have hnpl : ∀ c ∈ clean_col_name x, c ≠ '+' := fun c hc he =>
    clean_not_special x '+' (by decide) (Or.inr (Or.inl rfl)) (he ▸ hc)
  have hndt : ∀ c ∈ clean_col_name x, c ≠ '.' := fun c hc he =>
    clean_not_special x '.' (by decide) (Or.inr (Or.inr (Or.inl rfl))) (he ▸ hc)
  have hnda : ∀ c ∈ clean_col_name x, c ≠ '-' := fun c hc he =>
    clean_not_special x '-' (by decide) (Or.inr (Or.inr (Or.inr rfl))) (he ▸ hc)
  have e1 : pyReplace (clean_col_name x) chSp chUnd = clean_col_name x := by
    simp only [chSp, chUnd]; rw [pyReplace_single]; exact map_if_id _ _ _ hnsp
  have e2 : pyReplace (clean_col_name x) chPlus chUnd = clean_col_name x := by
    simp only [chPlus, chUnd]; rw [pyReplace_single]; exact map_if_id _ _ _ hnpl
  have e3 : pyReplace (clean_col_name x) chDot [] = clean_col_name x := by
    simp only [chDot]; rw [pyReplace_del]
    exact List.filter_eq_self.mpr (fun c hc => by simp [bne_iff_ne]; exact hndt c hc)
  have e4 : pyReplace (clean_col_name x) chDash chUnd = clean_col_name x := by
    simp only [chDash, chUnd]; rw [pyReplace_single]; exact map_if_id _ _ _ hnda
  have e5 : pyReplace (clean_col_name x) chUndUnd chUnd = clean_col_name x :=
    pyReplace_id_of_not_sub _ _ _ (by simp [chUndUnd]) h1
  have hfold : charFold (clean_col_name x) = clean_col_name x := by
    unfold charFold; rw [e1, e2, e3, e4, e5]
  have hupper : upperName (clean_col_name x) = clean_col_name x :=
    upperName_fixed _ (chars_clean_upper x)
  have t1 : (if hasSubstring (clean_col_name x) pTID then
      pyReplace (clean_col_name x) pTID rTID else clean_col_name x) = clean_col_name x :=
    if_neg (by simp [h2])
  have t2 : (if hasSubstring (clean_col_name x) pINI then
      pyReplace (clean_col_name x) pINI rINI else clean_col_name x) = clean_col_name x :=
    if_neg (by simp [h3])
  have t3 : (if hasSubstring (clean_col_name x) pAPY then
      pyReplace (clean_col_name x) pAPY rAPY else clean_col_name x) = clean_col_name x :=
    if_neg (by simp [h4])
  have t4 : (if hasSubstring (clean_col_name x) pCUR then
      rCUR else clean_col_name x) = clean_col_name x :=
    if_neg (by simp [h5])
  have htypo : typoFix (clean_col_name x) = clean_col_name x := by
    unfold typoFix
    simp only []
    rw [t1, t2, t3, t4]
    by_cases hq : hasSubstring (clean_col_name x) pQE = true
    · rw [if_pos hq]; exact (h6 hq).symm
    · rw [if_neg hq]
  calc clean_col_name (clean_col_name x)
      = typoFix (upperName (charFold (pyStrip (clean_col_name x)))) := rfl
    _ = clean_col_name x := by rw [h0, hfold, hupper, htypo]

/-- C2, counterexample: normalizing the label ALL_PRIOR_YEARS_A once gives
ALL_PRIOR_YEARS_ACTUALS, which still contains the typo trigger, so a second
normalization mangles it: idempotence fails. -/
theorem c2_counterexample :
    clean_col_name (clean_col_name pAPY) ≠ clean_col_name pAPY := by decide

theorem c2_witness :
    clean_col_name (clean_col_name (("Project Name".toList))) =
      clean_col_name (("Project Name".toList)) :=
  c2_thm _ (by decide) (by decide) (by decide) (by decide) (by decide) (by decide) (by decide)

/-- C3, amended: step 2 of the Header Normalizer replaces each space, plus
and dash with an underscore, deletes each dot, and then collapses double
underscores in one left-to-right pass, so that four consecutive
substitutions leave a double underscore behind. -/
theorem c3_thm :
    (∀ s : List Char, charFold s = step2spec s) ∧
    charFold (("a    b".toList)) = ("a__b".toList) ∧
    charFold (("a  b".toList)) = ("a_b".toList) :=
  ⟨charFold_closed, by decide, by decide⟩

/-- C3, counterexample: a dot is deleted rather than replaced by an
underscore, and a double underscore produced by two adjacent
substitutions is collapsed. -/
theorem c3_counterexample :
    charFold (("a.b".toList)) = ("ab".toList) ∧ ("ab".toList) ≠ ("a_b".toList) ∧
    charFold (("a  b".toList)) = ("a_b".toList) ∧ ("a_b".toList) ≠ ("a__b".toList) := by
  refine ⟨by decide, by decide, by decide, by decide⟩

/- Decimal digit strings. -/

theorem natStrFuel_congr : ∀ (f g n : Nat), n < f → n < g → natStrFuel f n = natStrFuel g n := by
  intro f
  induction f with
  | zero => intro g n hf; omega
  | succ f ih =>
    intro g n hf hg
    cases g with
    | zero => omega
    | succ g' =>
      simp only [natStrFuel]
      by_cases h10 : n < 10
      · rw [if_pos h10, if_pos h10]
      · rw [if_neg h10, if_neg h10]
        have hdiv : n / 10 < n := Nat.div_lt_self (by omega) (by omega)
        rw [ih g' (n / 10) (by omega) (by omega)]

theorem natStr_unfold (n : Nat) :
    natStr n = if n < 10 then [Char.ofNat (48 + n)]
      else natStr (n / 10) ++ [Char.ofNat (48 + n % 10)] := by
  conv_lhs => unfold natStr natStrFuel
  by_cases h10 : n < 10
  · rw [if_pos h10, if_pos h10]
  · rw [if_neg h10, if_neg h10]
    have hdiv : n / 10 < n := Nat.div_lt_self (by omega) (by omega)
    rw [natStrFuel_congr n (n / 10 + 1) (n / 10) (by omega) (by omega)]
    rfl

theorem digit_toNat (m : Nat) (h : m < 10) : (Char.ofNat (48 + m)).toNat = 48 + m := by
  interval_cases m <;> decide

theorem digit_isDigit (m : Nat) (h : m < 10) : (Char.ofNat (48 + m)).isDigit = true := by
  interval_cases m <;> decide

theorem natStr_digits (n : Nat) : ∀ c ∈ natStr n, c.isDigit = true := by
  induction n using Nat.strong_induction_on with
  | _ n ih =>
    rw [natStr_unfold]
    by_cases h : n < 10
    · rw [if_pos h]
      intro c hc
      rw [List.mem_singleton] at hc
      subst hc
      exact digit_isDigit n h
    · rw [if_neg h]
      intro c hc
      rcases List.mem_append.mp hc with h1 | h1
      · exact ih (n / 10) (Nat.div_lt_self (by omega) (by omega)) c h1
      · rw [List.mem_singleton] at h1
        subst h1
        exact digit_isDigit (n % 10) (Nat.mod_lt n (by omega))

theorem natStr_ne_nil (n : Nat) : natStr n ≠ [] := by
  rw [natStr_unfold]
  by_cases h : n < 10
  · rw [if_pos h]; simp
  · rw [if_neg h]; simp

theorem natOfDigits_append (l : List Char) (c : Char) :
    natOfDigits (l ++ [c]) = 10 * natOfDigits l + (c.toNat - 48) := by
  unfold natOfDigits
  rw [List.foldl_append]
  rfl

theorem natOfDigits_natStr (n : Nat) : natOfDigits (natStr n) = n := by
  induction n using Nat.strong_induction_on with
  | _ n ih =>
    rw [natStr_unfold]
    by_cases h : n < 10
    · rw [if_pos h]
      show natOfDigits ([] ++ [Char.ofNat (48 + n)]) = n
      rw [natOfDigits_append, digit_toNat n h]
      simp [natOfDigits]
    · rw [if_neg h, natOfDigits_append,
        ih (n / 10) (Nat.div_lt_self (by omega) (by omega)),
        digit_toNat (n % 10) (Nat.mod_lt n (by omega))]
      omega

theorem natStr_inj {a b : Nat} (h : natStr a = natStr b) : a = b := by
  have h1 := natOfDigits_natStr a
  rw [h, natOfDigits_natStr] at h1
  exact h1.symm

theorem und_not_in_natStr (n : Nat) : '_' ∉ natStr n := by
  intro h
  have := natStr_digits n '_' h
  exact absurd this (by decide)

theorem mem_getLast? (l : List Char) (z : Char) (h : l.getLast? = some z) : z ∈ l := by
  have hne : l ≠ [] := by intro he; rw [he] at h; exact absurd h (by simp)
  rw [List.getLast?_eq_getLast l hne] at h
  have := List.getLast_mem hne
  rwa [Option.some_inj.mp h] at this

/- Resolver-synthesized names never match the monthly patterns. -/

theorem nmEndsWith_synth (base : Name) (k : Nat) (p : Name) (z : Char)
    (hz : z.isDigit = false) (hp : p.getLast? = some z) :
    nmEndsWith (base ++ '_' :: natStr k) p = false := by
  by_contra hcon
  rw [Bool.not_eq_false] at hcon
  unfold nmEndsWith at hcon
  have hsuf : p <:+ (base ++ '_' :: natStr k) := List.isSuffixOf_iff_suffix.mp hcon
  obtain ⟨t, ht⟩ := hsuf
  have h1 : (base ++ '_' :: natStr k).getLast? = some z := by
    rw [← ht, List.getLast?_append, hp]
    rfl
  have hw := List.getLast?_eq_getLast (natStr k) (natStr_ne_nil k)
  have h2 : (base ++ '_' :: natStr k).getLast? =
      some ((natStr k).getLast (natStr_ne_nil k)) := by
    rw [List.append_cons, List.getLast?_append, hw]
    rfl
  rw [h1] at h2
  have hzw : z = (natStr k).getLast (natStr_ne_nil k) := Option.some_inj.mp h2
  have hmem := List.getLast_mem (natStr_ne_nil k)
  have hd := natStr_digits k _ hmem
  rw [← hzw, hz] at hd
  exact Bool.false_ne_true hd

set_option maxRecDepth 10000 in
/-- C1, amended: a resolver-suffixed duplicate of a monthly field (base,
underscore, decimal index) never matches the monthly-actual,
monthly-forecast or monthly-capital-plan pattern, because the pattern
requires the suffix letter at the end while the synthesized name ends in a
digit; consequently such duplicates are excluded from the derived totals,
as the duplicated-column table shows: the total counts only the column
that kept the unsuffixed name. -/
theorem c1_thm :
    (∀ (base : Name) (k : Nat),
      isMonthlyActual (base ++ '_' :: natStr k) = false ∧
      isMonthlyForecast (base ++ '_' :: natStr k) = false ∧
      isMonthlyPlan (base ++ '_' :: natStr k) = false) ∧
    resolvedNames tblDup = [("2025_01_A".toList), ("2025_01_A_1".toList), rAPY] ∧
    loadedCol tblDup nmTOTA = some [Cell.num 100] := by
  refine ⟨?_, by decide, by with_unfolding_all decide⟩
  intro base k
  refine ⟨?_, ?_, ?_⟩
  · unfold isMonthlyActual
    rw [nmEndsWith_synth base k sufA 'A' (by decide) (by decide)]
    simp
  · unfold isMonthlyForecast
    rw [nmEndsWith_synth base k sufF 'F' (by decide) (by decide)]
    simp
  · unfold isMonthlyPlan
    rw [nmEndsWith_synth base k sufCP 'P' (by decide) (by decide)]
    simp

/-- C1, counterexample: the resolver-suffixed duplicates of the claim are
not classified as monthly columns by the recognition rule. -/
theorem c1_counterexample :
    isMonthlyActual (("2025_01_A_1".toList)) = false ∧
    isMonthlyForecast (("2025_01_F_1".toList)) = false ∧
    isMonthlyPlan (("2025_01_CP_1".toList)) = false := by decide

/- The duplicate resolver against its specification. -/

theorem partResolveAux_nil : ∀ (l seen : List Name), partResolveAux [] seen l = l := by
  intro l
  induction l with
  | nil => intro seen; rfl
  | cons v rest ih =>
    intro seen
    simp only [partResolveAux, List.not_mem_nil, if_false]
    rw [ih (v :: seen)]

theorem renameDupAux_length (d : Name) : ∀ (x : List Name) (k : Nat),
    (renameDupAux d k x).length = x.length := by
  intro x
  induction x with
  | nil => intro k; rfl
  | cons v rest ih =>
    intro k
    simp only [renameDupAux]
    by_cases hv : v = d
    · rw [if_pos hv]; simp [ih]
    · rw [if_neg hv]; simp [ih]

theorem foldl_renameDup_length : ∀ (D : List Name) (x : List Name),
    (List.foldl renameDup x D).length = x.length := by
  intro D
  induction D with
  | nil => intro x; rfl
  | cons d D' ih =>
    intro x
    rw [List.foldl_cons, ih]
    exact renameDupAux_length d x 0

theorem resolve_length (l : List Name) : (resolveDuplicates l).length = l.length :=
  foldl_renameDup_length (dupValues l) l

theorem renameDupAux_part (D : List Name) (d : Name) (hd : d ∉ D) :
    ∀ (l seen : List Name),
      (∀ v ∈ l, ∀ k : Nat, 1 ≤ k → v ++ '_' :: natStr k ≠ d) →
      renameDupAux d (seen.count d) (partResolveAux D seen l) =
        partResolveAux (D ++ [d]) seen l := by
  intro l
  induction l with
  | nil => intro seen _; rfl
  | cons v rest ih =>
    intro seen hfree
    have hfree' : ∀ v ∈ rest, ∀ k : Nat, 1 ≤ k → v ++ '_' :: natStr k ≠ d :=
      fun w hw => hfree w (List.mem_cons_of_mem v hw)
    simp only [partResolveAux]
    by_cases hvd : v = d
    · subst hvd
      rw [if_neg hd]
      have hmem : v ∈ D ++ [v] := List.mem_append_right D (List.mem_singleton.mpr rfl)
      rw [if_pos hmem]
      simp only [renameDupAux, if_pos rfl]
      have hcnt : (v :: seen).count v = seen.count v + 1 := List.count_cons_self v seen
      have hrec := ih (v :: seen) hfree'
      rw [hcnt] at hrec
      rw [hrec]
      rfl
    · have hc0 : (if v ∈ D then emit v (seen.count v) else v) ≠ d := by
        by_cases hvD : v ∈ D
        · rw [if_pos hvD]
          unfold emit
          by_cases hz : seen.count v = 0
          · rw [if_pos hz]; exact hvd
          · rw [if_neg hz]
            exact hfree v (List.mem_cons_self v rest) (seen.count v) (Nat.pos_of_ne_zero hz)
        · rw [if_neg hvD]; exact hvd
      simp only [renameDupAux, if_neg hc0]
      have hcnt : (v :: seen).count d = seen.count d := by
        rw [List.count_cons]
        simp [hvd]
      have hrec := ih (v :: seen) hfree'
      rw [hcnt] at hrec
      rw [hrec]
      have hmemiff : (v ∈ D ++ [d]) ↔ (v ∈ D) := by
        simp [List.mem_append, hvd]
      congr 1
      by_cases hvD : v ∈ D
      · rw [if_pos hvD, if_pos (List.mem_append_left [d] hvD)]
      · rw [if_neg hvD, if_neg (fun h => hvD (hmemiff.mp h))]

theorem foldl_renameDup_part (l : List Name) :
    ∀ (D E : List Name), (E ++ D).Nodup →
      (∀ d ∈ D, ∀ v ∈ l, ∀ k : Nat, 1 ≤ k → v ++ '_' :: natStr k ≠ d) →
      List.foldl renameDup (partResolveAux E [] l) D = partResolveAux (E ++ D) [] l := by
  intro D
  induction D with
  | nil =>
    intro E _ _
    rw [List.foldl_nil, List.append_nil]
  | cons d D' ih =>
    intro E hnd hfree
    rw [List.foldl_cons]
    have hdE : d ∉ E := by
      rcases List.nodup_append.mp hnd with ⟨_, _, hdisj⟩
      intro hin
      exact hdisj hin (List.mem_cons_self d D')
    have hstep : renameDup (partResolveAux E [] l) d = partResolveAux (E ++ [d]) [] l := by
      have h := renameDupAux_part E d hdE l []
        (fun v hv k hk => hfree d (List.mem_cons_self d D') v hv k hk)
      simpa [renameDup] using h
    rw [hstep]
    have hnd' : ((E ++ [d]) ++ D').Nodup := by
      rw [List.append_assoc]
      simpa using hnd
    have hfree' : ∀ x ∈ D', ∀ v ∈ l, ∀ k : Nat, 1 ≤ k → v ++ '_' :: natStr k ≠ x :=
      fun x hx => hfree x (List.mem_cons_of_mem d hx)
    rw [ih (E ++ [d]) hnd' hfree', List.append_assoc]
    rfl

/- The snapshot of duplicated values. -/

theorem dupEntriesAux_subset : ∀ (l seen : List Name) (w : Name),
    w ∈ dupEntriesAux seen l → w ∈ l := by
  intro l
  induction l with
  | nil => intro seen w h; exact absurd h (List.not_mem_nil w)
  | cons v rest ih =>
    intro seen w h
    simp only [dupEntriesAux] at h
    by_cases hv : v ∈ seen
    · rw [if_pos hv] at h
      rcases List.mem_cons.mp h with rfl | h'
      · exact List.mem_cons_self _ _
      · exact List.mem_cons_of_mem v (ih seen w h')
    · rw [if_neg hv] at h
      exact List.mem_cons_of_mem v (ih (v :: seen) w h)

theorem dupEntriesAux_complete : ∀ (l seen : List Name) (w : Name),
    ((w ∈ seen ∧ w ∈ l) ∨ 2 ≤ l.count w) → w ∈ dupEntriesAux seen l := by
  intro l
  induction l with
  | nil =>
    intro seen w h
    rcases h with ⟨_, h2⟩ | h2
    · exact absurd h2 (List.not_mem_nil w)
    · simp at h2
  | cons v rest ih =>
    intro seen w h
    simp only [dupEntriesAux]
    by_cases hv : v ∈ seen
    · rw [if_pos hv]
      by_cases hwv : w = v
      · subst hwv; exact List.mem_cons_self w _
      · apply List.mem_cons_of_mem
        apply ih seen w
        rcases h with ⟨hs, hl⟩ | hc
        · left
          refine ⟨hs, ?_⟩
          rcases List.mem_cons.mp hl with h' | h'
          · exact absurd h' hwv
          · exact h'
        · right
          rwa [List.count_cons, if_neg (by simp [Ne.symm hwv] : ¬(v == w) = true),
            Nat.add_zero] at hc
    · rw [if_neg hv]
      apply ih (v :: seen) w
      by_cases hwv : w = v
      · subst hwv
        rcases h with ⟨hs, _⟩ | hc
        · exact absurd hs hv
        · left
          rw [List.count_cons_self] at hc
          refine ⟨List.mem_cons_self w seen, ?_⟩
          have : 1 ≤ rest.count w := by omega
          exact List.count_pos_iff.mp this
      · rcases h with ⟨hs, hl⟩ | hc
        · left
          refine ⟨List.mem_cons_of_mem v hs, ?_⟩
          rcases List.mem_cons.mp hl with h' | h'
          · exact absurd h' hwv
          · exact h'
        · right
          rwa [List.count_cons, if_neg (by simp [Ne.symm hwv] : ¬(v == w) = true),
            Nat.add_zero] at hc

theorem pdUniqueAux_mem : ∀ (l seen : List Name) (w : Name),
    w ∈ pdUniqueAux seen l ↔ (w ∈ l ∧ w ∉ seen) := by
  intro l
  induction l with
  | nil => intro seen w; simp [pdUniqueAux]
  | cons v rest ih =>
    intro seen w
    simp only [pdUniqueAux]
    by_cases hv : v ∈ seen
    · rw [if_pos hv, ih seen w]
      constructor
      · rintro ⟨h1, h2⟩
        exact ⟨List.mem_cons_of_mem v h1, h2⟩
      · rintro ⟨h1, h2⟩
        rcases List.mem_cons.mp h1 with rfl | h1'
        · exact absurd hv h2
        · exact ⟨h1', h2⟩
    · rw [if_neg hv]
      by_cases hwv : w = v
      · subst hwv
        simp [hv]
      · constructor
        · intro h
          rcases List.mem_cons.mp h with h' | h'
          · exact absurd h' hwv
          · obtain ⟨h1, h2⟩ := (ih (v :: seen) w).mp h'
            refine ⟨List.mem_cons_of_mem v h1, fun hin => h2 (List.mem_cons_of_mem v hin)⟩
        · rintro ⟨h1, h2⟩
          apply List.mem_cons_of_mem
          apply (ih (v :: seen) w).mpr
          rcases List.mem_cons.mp h1 with h' | h'
          · exact absurd h' hwv
          · refine ⟨h', fun hin => ?_⟩
            rcases List.mem_cons.mp hin with h'' | h''
            · exact hwv h''
            · exact h2 h''

theorem pdUniqueAux_nodup : ∀ (l seen : List Name), (pdUniqueAux seen l).Nodup := by
  intro l
  induction l with
  | nil => intro seen; simp [pdUniqueAux]
  | cons v rest ih =>
    intro seen
    simp only [pdUniqueAux]
    by_cases hv : v ∈ seen
    · rw [if_pos hv]; exact ih seen
    · rw [if_neg hv]
      rw [List.nodup_cons]
      refine ⟨?_, ih (v :: seen)⟩
      intro hin
      have := (pdUniqueAux_mem rest (v :: seen) v).mp hin
      exact this.2 (List.mem_cons_self v seen)

theorem dupValues_nodup (l : List Name) : (dupValues l).Nodup :=
  pdUniqueAux_nodup (dupEntriesAux [] l) []

theorem dupValues_subset (l : List Name) (w : Name) (h : w ∈ dupValues l) : w ∈ l :=
  dupEntriesAux_subset l [] w ((pdUniqueAux_mem (dupEntriesAux [] l) [] w).mp h).1

theorem dupValues_complete (l : List Name) (w : Name) (h : 2 ≤ l.count w) :
    w ∈ dupValues l :=
  (pdUniqueAux_mem (dupEntriesAux [] l) [] w).mpr
    ⟨dupEntriesAux_complete l [] w (Or.inr h), by simp⟩

theorem partResolveAux_spec (D : List Name) :
    ∀ (l seen : List Name),
      (∀ w ∈ l, (w ∈ seen ∨ 2 ≤ l.count w) → w ∈ D) →
      partResolveAux D seen l = specResolveAux seen l := by
  intro l
  induction l with
  | nil => intro seen _; rfl
  | cons v rest ih =>
    intro seen hI
    simp only [partResolveAux, specResolveAux]
    congr 1
    · by_cases hc : seen.count v = 0
      · have he : emit v (seen.count v) = v := by rw [hc]; rfl
        rw [he]
        split <;> rfl
      · have hvseen : v ∈ seen := List.count_pos_iff.mp (Nat.pos_of_ne_zero hc)
        exact if_pos (hI v (List.mem_cons_self v rest) (Or.inl hvseen))
    · apply ih (v :: seen)
      intro w hw hcase
      apply hI w (List.mem_cons_of_mem v hw)
      rcases hcase with hs | hcnt
      · rcases List.mem_cons.mp hs with rfl | hs'
        · right
          rw [List.count_cons_self]
          have : 1 ≤ rest.count w := List.count_pos_iff.mpr hw
          omega
        · exact Or.inl hs'
      · right
        rw [List.count_cons]
        omega

/- Synthesized-name recognition. -/

theorem natStr_isEmpty (k : Nat) : (natStr k).isEmpty = false := by
  cases h : natStr k with
  | nil => exact absurd h (natStr_ne_nil k)
  | cons a l => rfl

theorem isSynthSuffix_self_append (v : Name) (k : Nat) (hk : 1 ≤ k) :
    isSynthSuffix (v ++ '_' :: natStr k) v = true := by
  unfold isSynthSuffix
  rw [List.take_left, List.drop_left]
  simp only [beq_self_eq_true, Bool.true_and]
  rw [natStr_isEmpty k]
  rw [List.all_eq_true.mpr (natStr_digits k)]
  rw [natOfDigits_natStr k]
  simp [hk]

theorem noSynthCollision_spec {l : List Name} (H : noSynthCollision l = true)
    {w v : Name} (hw : w ∈ l) (hv : v ∈ l) : isSynthSuffix w v = false := by
  unfold noSynthCollision at H
  rw [List.all_eq_true] at H
  have h1 := H w hw
  rw [List.all_eq_true] at h1
  have h2 := h1 v hv
  simpa using h2

theorem resolve_eq_spec (l : List Name) (H : noSynthCollision l = true) :
    resolveDuplicates l = specResolve l := by
  have hfree : ∀ d ∈ dupValues l, ∀ v ∈ l, ∀ k : Nat, 1 ≤ k → v ++ '_' :: natStr k ≠ d := by
    intro d hd v hv k hk heq
    have hdl : d ∈ l := dupValues_subset l d hd
    have htrue : isSynthSuffix d v = true := by
      rw [← heq]
      exact isSynthSuffix_self_append v k hk
    have hfalse := noSynthCollision_spec H hdl hv
    rw [htrue] at hfalse
    exact Bool.noConfusion hfalse
  have h0 : partResolveAux [] [] l = l := partResolveAux_nil l []
  show List.foldl renameDup l (dupValues l) = specResolve l
  have hfold := foldl_renameDup_part l (dupValues l) []
    (by simpa using dupValues_nodup l) hfree
  rw [h0] at hfold
  rw [hfold, List.nil_append]
  exact partResolveAux_spec (dupValues l) l []
    (fun w hw hcase => by
      rcases hcase with hs | hcnt
      · exact absurd hs (List.not_mem_nil w)
      · exact dupValues_complete l w hcnt)

/-- C7, amended: the Duplicate Resolver is length-preserving, and on any
input sequence in which no label collides with a name synthesizable from
another label (base, underscore, positive decimal index), it renames the
i-th repeated occurrence of each value to the value with underscore and i,
keeping first occurrences, exactly as specResolve prescribes. -/
theorem c7_thm (l : List Name) (H : noSynthCollision l = true) :
    resolveDuplicates l = specResolve l ∧ (resolveDuplicates l).length = l.length :=
  ⟨resolve_eq_spec l H, resolve_length l⟩

set_option maxRecDepth 4000 in
/-- C7, counterexample: on the collision input the loop processes the
snapshot value A_1 against the already-renamed state, so the first input
occurrence of A_1 does not keep its value, against the per-value rule of
the claim. -/
theorem c7_counterexample :
    resolveDuplicates lColl ≠ specResolve lColl ∧
    resolveDuplicates lColl = List.map String.toList ["A", "A_1", "A_1_1", "A_1_2"] ∧
    specResolve lColl = List.map String.toList ["A", "A_1", "A_1", "A_1_1"] := by
  refine ⟨by decide, by decide, by decide⟩

set_option maxRecDepth 4000 in
theorem c7_witness :
    noSynthCollision (List.map clean_col_name lScenario) = true ∧
    (resolveDuplicates (List.map clean_col_name lScenario) =
        specResolve (List.map clean_col_name lScenario) ∧
      (resolveDuplicates (List.map clean_col_name lScenario)).length =
        (List.map clean_col_name lScenario).length) ∧
    List.map clean_col_name lScenario =
      List.map String.toList ["RATE", "RATE", "2025_01_A", "2025_01_A"] ∧
    resolveDuplicates (List.map clean_col_name lScenario) =
      List.map String.toList ["RATE", "RATE_1", "2025_01_A", "2025_01_A_1"] :=
  ⟨by decide, c7_thm _ (by decide), by decide, by decide⟩

/- Uniqueness of the specification resolver output. -/

theorem emit_pos_inj_ne {v w : Name} (hne : v ≠ w) (c d : Nat) :
    v ++ '_' :: natStr c ≠ w ++ '_' :: natStr d := by
  intro heq
  rcases List.append_eq_append_iff.mp heq with ⟨a, ha1, ha2⟩ | ⟨a, ha1, ha2⟩
  · cases a with
    | nil =>
      rw [List.append_nil] at ha1
      exact hne ha1.symm
    | cons x t =>
      rw [List.cons_append] at ha2
      injection ha2 with h1 h2
      have hmem : '_' ∈ natStr c := by
        rw [h2]
        exact List.mem_append_right t (List.mem_cons_self '_' (natStr d))
      exact und_not_in_natStr c hmem
  · cases a with
    | nil =>
      rw [List.append_nil] at ha1
      exact hne ha1
    | cons x t =>
      rw [List.cons_append] at ha2
      injection ha2 with h1 h2
      have hmem : '_' ∈ natStr d := by
        rw [h2]
        exact List.mem_append_right t (List.mem_cons_self '_' (natStr c))
      exact und_not_in_natStr d hmem

theorem specResolveAux_props (l0 : List Name) (H : noSynthCollision l0 = true) :
    ∀ (l seen : List Name), (∀ v ∈ l, v ∈ l0) →
      (∀ e ∈ specResolveAux seen l, ∃ v c, v ∈ l ∧ seen.count v ≤ c ∧ e = emit v c) ∧
      (specResolveAux seen l).Nodup := by
  intro l
  induction l with
  | nil =>
    intro seen _
    exact ⟨fun e he => absurd he (List.not_mem_nil e), List.nodup_nil⟩
  | cons v rest ih =>
    intro seen hsub
    obtain ⟨ihchar, ihnodup⟩ := ih (v :: seen) (fun w hw => hsub w (List.mem_cons_of_mem v hw))
    constructor
    · intro e he
      simp only [specResolveAux] at he
      rcases List.mem_cons.mp he with he0 | he'
      · exact ⟨v, seen.count v, List.mem_cons_self v rest, le_refl _, he0⟩
      · rcases ihchar e he' with ⟨w, c, hw, hc, hem⟩
        refine ⟨w, c, List.mem_cons_of_mem v hw, ?_, hem⟩
        have hmono : seen.count w ≤ (v :: seen).count w := by
          rw [List.count_cons]
          omega
        omega
    · simp only [specResolveAux]
      rw [List.nodup_cons]
      refine ⟨?_, ihnodup⟩
      intro hmem
      rcases ihchar _ hmem with ⟨w, c, hwrest, hcge, hemit⟩
      by_cases hwv : w = v
      · subst hwv
        rw [List.count_cons_self] at hcge
        by_cases hcnt : seen.count w = 0
        · rw [hcnt] at hcge hemit
          have hc1 : ¬(c = 0) := by omega
          simp only [emit, if_pos rfl, if_neg hc1] at hemit
          have hlen := congrArg List.length hemit
          simp [List.length_append] at hlen
        · have hc1 : ¬(c = 0) := by omega
          simp only [emit, if_neg hcnt, if_neg hc1] at hemit
          have h2 := List.append_cancel_left hemit
          injection h2 with _ h3
          have := natStr_inj h3
          omega
      · have hvl0 : v ∈ l0 := hsub v (List.mem_cons_self v rest)
        have hwl0 : w ∈ l0 := hsub w (List.mem_cons_of_mem v hwrest)
        by_cases ha : seen.count v = 0 <;> by_cases hc : c = 0
        · simp only [emit, if_pos ha, if_pos hc] at hemit
          exact hwv hemit.symm
        · simp only [emit, if_pos ha, if_neg hc] at hemit
          have hs : isSynthSuffix v w = true := by
            rw [hemit]
            exact isSynthSuffix_self_append w c (Nat.pos_of_ne_zero hc)
          have hf := noSynthCollision_spec H hvl0 hwl0
          rw [hs] at hf
          exact Bool.noConfusion hf
        · simp only [emit, if_neg ha, if_pos hc] at hemit
          have hs : isSynthSuffix w v = true := by
            rw [← hemit]
            exact isSynthSuffix_self_append v _ (Nat.pos_of_ne_zero ha)
          have hf := noSynthCollision_spec H hwl0 hvl0
          rw [hs] at hf
          exact Bool.noConfusion hf
        · simp only [emit, if_neg ha, if_neg hc] at hemit
          exact emit_pos_inj_ne (fun h => hwv h.symm) _ _ hemit

theorem specResolve_nodup (l : List Name) (H : noSynthCollision l = true) :
    (specResolve l).Nodup :=
  (specResolveAux_props l H l [] (fun _ h => h)).2

/-- C8, amended: for any raw label sequence whose normalization has no
collision between a label and a name synthesizable from another label,
normalizing each label and resolving duplicates yields a sequence with no
duplicate values. -/
theorem c8_thm (labels : List Name)
    (H : noSynthCollision (List.map clean_col_name labels) = true) :
    (resolveDuplicates (List.map clean_col_name labels)).Nodup := by
  rw [resolve_eq_spec _ H]
  exact specResolve_nodup _ H

set_option maxRecDepth 4000 in
/-- C8, counterexample: the raw labels a, a, a 1 normalize to A, A, A_1,
and resolution renames the second A to A_1, duplicating the third label:
uniqueness fails without the no-collision proviso. -/
theorem c8_counterexample :
    ¬(resolveDuplicates (List.map clean_col_name lCollRaw)).Nodup ∧
    resolveDuplicates (List.map clean_col_name lCollRaw) =
      List.map String.toList ["A", "A_1", "A_1"] := by
  refine ⟨by decide, by decide⟩

set_option maxRecDepth 4000 in
theorem c8_witness :
    (resolveDuplicates (List.map clean_col_name lScenario)).Nodup :=
  c8_thm lScenario (by decide)

/- Column access and assignment. -/

theorem getCol?_setCol_self : ∀ (cols : List Col) (n : Name) (v : List Cell),
    getCol? (setCol cols n v) n = some v := by
  intro cols
  induction cols with
  | nil => intro n v; simp [setCol, getCol?]
  | cons p rest ih =>
    intro n v
    obtain ⟨m, u⟩ := p
    simp only [setCol]
    by_cases hm : m = n
    · rw [if_pos hm]
      simp [getCol?]
    · rw [if_neg hm]
      simp only [getCol?, if_neg hm]
      exact ih n v

theorem getCol?_setCol_other : ∀ (cols : List Col) (n m : Name) (v : List Cell), n ≠ m →
    getCol? (setCol cols n v) m = getCol? cols m := by
  intro cols
  induction cols with
  | nil =>
    intro n m v hnm
    simp [setCol, getCol?, hnm]
  | cons p rest ih =>
    intro n m v hnm
    obtain ⟨q, u⟩ := p
    simp only [setCol]
    by_cases hq : q = n
    · rw [if_pos hq]
      subst hq
      simp only [getCol?, if_neg hnm, if_neg hnm]
    · rw [if_neg hq]
      simp only [getCol?]
      by_cases hqm : q = m
      · rw [if_pos hqm, if_pos hqm]
      · rw [if_neg hqm, if_neg hqm]
        exact ih n m v hnm

/- The strict stage. -/

theorem strictCoerceColumn_none : ∀ (cs : List Cell) (c : Cell),
    c ∈ cs → strictCoerceCell c = none → strictCoerceColumn cs = none := by
  intro cs
  induction cs with
  | nil => intro c hc; exact absurd hc (List.not_mem_nil c)
  | cons d rest ih =>
    intro c hc hnone
    simp only [strictCoerceColumn]
    rcases List.mem_cons.mp hc with rfl | hc'
    · rw [hnone]
    · rw [ih c hc' hnone]
      cases strictCoerceCell d <;> rfl

theorem strictStage_none : ∀ (cols : List Col) (p : Col),
    p ∈ cols → coerceCol p.1 p.2 = none → strictStage cols = none := by
  intro cols
  induction cols with
  | nil => intro p hp; exact absurd hp (List.not_mem_nil p)
  | cons q rest ih =>
    intro p hp hnone
    simp only [strictStage]
    rcases List.mem_cons.mp hp with rfl | hp'
    · rw [hnone]
    · rw [ih p hp' hnone]
      cases coerceCol q.1 q.2 <;> rfl

theorem strictStage_names : ∀ (cols s : List Col),
    strictStage cols = some s → s.map Prod.fst = cols.map Prod.fst := by
  intro cols
  induction cols with
  | nil =>
    intro s h
    simp only [strictStage, Option.some_inj] at h
    rw [← h]
  | cons q rest ih =>
    intro s h
    simp only [strictStage] at h
    cases hc : coerceCol q.1 q.2 with
    | none => rw [hc] at h; cases strictStage rest <;> simp at h
    | some cs =>
      rw [hc] at h
      cases hr : strictStage rest with
      | none => rw [hr] at h; simp at h
      | some others =>
        rw [hr] at h
        simp only [Option.some_inj] at h
        rw [← h]
        simp only [List.map_cons]
        rw [ih others hr]

theorem lenientStage_names (cols : List Col) :
    (lenientStage cols).map Prod.fst = cols.map Prod.fst := by
  unfold lenientStage
  rw [List.map_map]
  apply List.map_congr_left
  intro p _
  by_cases h : isMonthlyCol p.1 = true
  · simp [h]
  · simp [h]

theorem groupTotal_num (nr : Nat) (cols : List Col) (ns : List Name) :
    ∀ c ∈ groupTotal nr cols ns, ∃ q, c = Cell.num q := by
  unfold groupTotal
  by_cases h : ns.isEmpty = true
  · rw [if_pos h]
    intro c hc
    rw [List.eq_of_mem_replicate hc]
    exact ⟨0, rfl⟩
  · rw [if_neg h]
    intro c hc
    rcases List.mem_map.mp hc with ⟨q, _, hq⟩
    exact ⟨q, hq.symm⟩

/- Destructuring a successful load. -/

theorem load_data_eq (t : RawTable) (t2 : RawTable) (h : load_data t = some t2) :
    ∃ s ap tot, strictStage (resolvedCols t) = some s ∧
      getCol? (totalsStage t.nrows (lenientStage s)) nmAPYA = some ap ∧
      getCol? (totalsStage t.nrows (lenientStage s)) nmTOTA = some tot ∧
      t2.nrows = t.nrows ∧
      t2.cols = setCol (totalsStage t.nrows (lenientStage s)) nmTAD
        (List.zipWith cellAdd ap tot) := by
  unfold load_data at h
  cases hs : strictStage (resolvedCols t) with
  | none => rw [hs] at h; exact absurd h (by simp)
  | some s =>
    rw [hs] at h
    dsimp only at h
    cases hap : getCol? (totalsStage t.nrows (lenientStage s)) nmAPYA with
    | none =>
      rw [hap] at h
      cases htot : getCol? (totalsStage t.nrows (lenientStage s)) nmTOTA <;>
        rw [htot] at h <;> exact absurd h (by simp)
    | some ap =>
      rw [hap] at h
      cases htot : getCol? (totalsStage t.nrows (lenientStage s)) nmTOTA with
      | none => rw [htot] at h; exact absurd h (by simp)
      | some tot =>
        rw [htot] at h
        simp only [Option.some_inj] at h
        refine ⟨s, ap, tot, rfl, hap, htot, ?_, ?_⟩
        · rw [← h]
        · rw [← h]

theorem loadedCol_eq (t t2 : RawTable) (h : load_data t = some t2) (n : Name) :
    loadedCol t n = getCol? t2.cols n := by
  unfold loadedCol
  rw [h]

/-- C9: whenever the load succeeds (in particular the prior-years column
is present after resolution, line 95 failing otherwise), the derived
column TOTAL_ACTUALS_TO_DATE is exactly the cell-wise sum of
ALL_PRIOR_YEARS_ACTUALS and TOTAL_2025_ACTUALS, row by row. -/
theorem c9_thm (t : RawTable) (h : (load_data t).isSome = true) :
    ∃ ap tot, loadedCol t nmAPYA = some ap ∧ loadedCol t nmTOTA = some tot ∧
      loadedCol t nmTAD = some (List.zipWith cellAdd ap tot) ∧
      ∀ (r : Nat) (c1 c2 c3 : Cell),
        (List.zipWith cellAdd ap tot)[r]? = some c1 → ap[r]? = some c2 →
        tot[r]? = some c3 → c1 = cellAdd c2 c3 := by
  obtain ⟨t2, ht2⟩ := Option.isSome_iff_exists.mp h
  obtain ⟨s, ap, tot, hs, hap, htot, hnr, hcols⟩ := load_data_eq t t2 ht2
  refine ⟨ap, tot, ?_, ?_, ?_, ?_⟩
  · rw [loadedCol_eq t t2 ht2, hcols, getCol?_setCol_other _ _ _ _ (by decide)]
    exact hap
  · rw [loadedCol_eq t t2 ht2, hcols, getCol?_setCol_other _ _ _ _ (by decide)]
    exact htot
  · rw [loadedCol_eq t t2 ht2, hcols]
    exact getCol?_setCol_self _ _ _
  · intro r c1 c2 c3 h1 h2 h3
    rw [List.getElem?_zipWith, h2, h3] at h1
    exact (Option.some_inj.mp h1).symm

theorem c9_witness :
    ∃ ap tot, loadedCol tblGood nmAPYA = some ap ∧ loadedCol tblGood nmTOTA = some tot ∧
      loadedCol tblGood nmTAD = some (List.zipWith cellAdd ap tot) ∧
      ∀ (r : Nat) (c1 c2 c3 : Cell),
        (List.zipWith cellAdd ap tot)[r]? = some c1 → ap[r]? = some c2 →
        tot[r]? = some c3 → c1 = cellAdd c2 c3 :=
  c9_thm tblGood (by decide)

theorem resolvedNames_of_stage (t : RawTable) (s : List Col)
    (hs : strictStage (resolvedCols t) = some s) :
    (lenientStage s).map Prod.fst = resolvedNames t := by
  rw [lenientStage_names, strictStage_names (resolvedCols t) s hs]
  rfl

/-- C10: after a successful load the three derived total columns hold a
number in every cell (missing monthly cells were replaced by 0 before
summation and the row-wise sum of numbers is a number), and a group with
no recognized column yields the constant-0 column over all rows. -/
theorem c10_thm (t : RawTable) (h : (load_data t).isSome = true) :
    (∃ ca, loadedCol t nmTOTA = some ca ∧ ∀ c ∈ ca, ∃ q, c = Cell.num q) ∧
    (∃ cf, loadedCol t nmTOTF = some cf ∧ ∀ c ∈ cf, ∃ q, c = Cell.num q) ∧
    (∃ cp, loadedCol t nmTOTCP = some cp ∧ ∀ c ∈ cp, ∃ q, c = Cell.num q) ∧
    ((resolvedNames t).filter isMonthlyActual = [] →
      loadedCol t nmTOTA = some (List.replicate t.nrows (Cell.num 0))) ∧
    ((resolvedNames t).filter isMonthlyForecast = [] →
      loadedCol t nmTOTF = some (List.replicate t.nrows (Cell.num 0))) ∧
    ((resolvedNames t).filter isMonthlyPlan = [] →
      loadedCol t nmTOTCP = some (List.replicate t.nrows (Cell.num 0))) := by
  obtain ⟨t2, ht2⟩ := Option.isSome_iff_exists.mp h
  obtain ⟨s, ap, tot, hs, hap, htot, hnr, hcols⟩ := load_data_eq t t2 ht2
  have hnames := resolvedNames_of_stage t s hs
  set lcols := lenientStage s with hl
  set aN := (lcols.map Prod.fst).filter isMonthlyActual with haN
  set c1 := setCol lcols nmTOTA (groupTotal t.nrows lcols aN) with hc1
  set fN := (lcols.map Prod.fst).filter isMonthlyForecast with hfN
  set c2 := setCol c1 nmTOTF (groupTotal t.nrows c1 fN) with hc2
  set pN := (lcols.map Prod.fst).filter isMonthlyPlan with hpN
  have htc : totalsStage t.nrows lcols = setCol c2 nmTOTCP (groupTotal t.nrows c2 pN) := rfl
  have hgetA : loadedCol t nmTOTA = some (groupTotal t.nrows lcols aN) := by
    rw [loadedCol_eq t t2 ht2, hcols, htc,
      getCol?_setCol_other _ _ _ _ (by decide : nmTAD ≠ nmTOTA),
      getCol?_setCol_other _ _ _ _ (by decide : nmTOTCP ≠ nmTOTA), hc2,
      getCol?_setCol_other _ _ _ _ (by decide : nmTOTF ≠ nmTOTA), hc1,
      getCol?_setCol_self]
  have hgetF : loadedCol t nmTOTF = some (groupTotal t.nrows c1 fN) := by
    rw [loadedCol_eq t t2 ht2, hcols, htc,
      getCol?_setCol_other _ _ _ _ (by decide : nmTAD ≠ nmTOTF),
      getCol?_setCol_other _ _ _ _ (by decide : nmTOTCP ≠ nmTOTF), hc2,
      getCol?_setCol_self]
  have hgetP : loadedCol t nmTOTCP = some (groupTotal t.nrows c2 pN) := by
    rw [loadedCol_eq t t2 ht2, hcols, htc,
      getCol?_setCol_other _ _ _ _ (by decide : nmTAD ≠ nmTOTCP),
      getCol?_setCol_self]
  refine ⟨⟨_, hgetA, groupTotal_num _ _ _⟩, ⟨_, hgetF, groupTotal_num _ _ _⟩,
    ⟨_, hgetP, groupTotal_num _ _ _⟩, ?_, ?_, ?_⟩
  · intro hempty
    rw [hgetA]
    have : aN = [] := by rw [haN, hnames]; exact hempty
    rw [this]
    rfl
  · intro hempty
    rw [hgetF]
    have : fN = [] := by rw [hfN, hnames]; exact hempty
    rw [this]
    rfl
  · intro hempty
    rw [hgetP]
    have : pN = [] := by rw [hpN, hnames]; exact hempty
    rw [this]
    rfl

theorem c10_witness :
    (∃ ca, loadedCol tblGood nmTOTA = some ca ∧ ∀ c ∈ ca, ∃ q, c = Cell.num q) ∧
    (∃ cf, loadedCol tblGood nmTOTF = some cf ∧ ∀ c ∈ cf, ∃ q, c = Cell.num q) ∧
    (∃ cp, loadedCol tblGood nmTOTCP = some cp ∧ ∀ c ∈ cp, ∃ q, c = Cell.num q) ∧
    ((resolvedNames tblGood).filter isMonthlyActual = [] →
      loadedCol tblGood nmTOTA = some (List.replicate tblGood.nrows (Cell.num 0))) ∧
    ((resolvedNames tblGood).filter isMonthlyForecast = [] →
      loadedCol tblGood nmTOTF = some (List.replicate tblGood.nrows (Cell.num 0))) ∧
    ((resolvedNames tblGood).filter isMonthlyPlan = [] →
      loadedCol tblGood nmTOTCP = some (List.replicate tblGood.nrows (Cell.num 0))) :=
  c10_thm tblGood (by decide)

/-- C5: for an allow-listed column that is present after resolution and is
text-typed, a cell that after comma and space stripping is nonempty and
unparseable fails the coercion of the whole column, and the error
propagates: the load returns nothing, with no partial per-cell result. -/
theorem c5_thm (t : RawTable) (n : Name) (cs : List Cell) (s : List Char)
    (hmem : (n, cs) ∈ resolvedCols t) (hfin : n ∈ financial_cols)
    (hobj : objectDtype cs = true) (hcell : Cell.text s ∈ cs)
    (hne : ¬(stripSeps s).isEmpty = true) (hbad : parseFloat (stripSeps s) = none) :
    strictCoerceColumn cs = none ∧ load_data t = none := by
  have hcellnone : strictCoerceCell (Cell.text s) = none := by
    simp only [strictCoerceCell]
    rw [if_neg hne, hbad]
  have hcol : strictCoerceColumn cs = none := strictCoerceColumn_none cs _ hcell hcellnone
  refine ⟨hcol, ?_⟩
  have hcoerce : coerceCol n cs = none := by
    unfold coerceCol
    rw [if_pos hfin, if_pos hobj]
    exact hcol
  unfold load_data
  rw [strictStage_none (resolvedCols t) (n, cs) hmem hcoerce]

theorem c5_witness :
    strictCoerceColumn [Cell.text ("bad".toList)] = none ∧ load_data tblRateBad = none :=
  c5_thm tblRateBad (("RATE".toList)) [Cell.text ("bad".toList)] ("bad".toList)
    (by decide) (by decide) (by decide) (by decide) (by decide) (by decide)

set_option maxRecDepth 10000 in
/-- C6: strict coercion of a text-typed financial column strips commas and
spaces, maps the empty string to 0, and parses the remainder as a number:
the scenario column coerces as the specification states, and comma or
space characters never change a cell result. -/
theorem c6_thm :
    strictCoerceColumn
        [Cell.text ("1,200".toList), Cell.text [], Cell.text ("350.50".toList)] =
      some [Cell.num 1200, Cell.num 0, Cell.num (350.5 : ℚ)] ∧
    (∀ s, strictCoerceCell (Cell.text (',' :: s)) = strictCoerceCell (Cell.text s)) ∧
    (∀ s, strictCoerceCell (Cell.text (' ' :: s)) = strictCoerceCell (Cell.text s)) ∧
    strictCoerceCell (Cell.text []) = some (Cell.num 0) := by
  refine ⟨by with_unfolding_all decide, ?_, ?_, by decide⟩
  · intro s
    simp only [strictCoerceCell]
    have h : stripSeps (',' :: s) = stripSeps s := by simp [stripSeps]
    rw [h]
  · intro s
    simp only [strictCoerceCell]
    have h : stripSeps (' ' :: s) = stripSeps s := by simp [stripSeps]
    rw [h]

/-- C4, amended: the dedicated monthly-grid pass itself never fails: every
cell becomes a number, unparseable and missing cells becoming 0; the
scenario of one row over monthly-actual columns valued 100, 200 and the
unparseable text bad yields the row total 300 when those columns are
outside the strict financial allow-list (months beyond 12 here); for
allow-listed monthly columns the same cells make the earlier strict pass
fail the whole load instead. -/
theorem c4_thm :
    (∀ c : Cell, ∃ q, lenientCell c = Cell.num q) ∧
    loadedCol tblLenient nmTOTA = some [Cell.num 300] ∧
    (load_data tblLenient).isSome = true := by
  refine ⟨?_, by with_unfolding_all decide, by decide⟩
  intro c
  cases c with
  | text s =>
    cases hp : parseFloat s with
    | some q => exact ⟨q, by simp [lenientCell, toNumericCell, fillZero, hp]⟩
    | none => exact ⟨0, by simp [lenientCell, toNumericCell, fillZero, hp]⟩
  | num q => exact ⟨q, rfl⟩
  | empty => exact ⟨0, rfl⟩

/-- C4, counterexample: the same unparseable monthly-actual cells under
allow-listed column names abort the whole load in the strict pass, so the
claimed always-non-failing coercion to 100, 200, 0 does not happen. -/
theorem c4_counterexample : load_data tblStrictBad = none := by decide
